import Mathlib

/-!
Shallow embedding of `sidis_time_reversal_solver.py` (TimeReversalFramework).

The script has four numerical engines:
* a classical trajectory integrator (`pos += vel * dt` explicit Euler, forward
  velocities and exactly negated velocities from shared initial positions);
* a spatial-entropy estimator (`compute_entropy`): per time step, bin particle
  positions into a `grid_size × grid_size` grid via
  `np.clip((traj[t] / 10 * grid_size).astype(int), 0, grid_size - 1)`,
  turn counts into probabilities and take Shannon entropy over positive cells;
* a chaos indicator (`avg_pairwise_dist`): per time step, mean Euclidean
  distance over unordered pairs of distinct particles, then `log(· + 1e-8)`;
* a spectral quantum evolver (`evolve`): `ifft(fft(psi) * exp(-1j*E_k*t/hbar))`
  with `E_k = hbar^2 k^2 / (2 m)`.

Machine floats are embedded as exact reals, numpy complex arrays as
`Fin n → ℂ`, and the discrete Fourier transform pair (`scipy.fft.fft/ifft`)
by its defining sums.  Python exceptions (`ZeroDivisionError` from `0/0`,
numpy's `ValueError` on negative dimensions) are embedded with `Except`.
-/

namespace TimeReversal

/-! ## 1. Classical particle simulation (source lines 15–39) -/

/-- The per-axis particle state of the script: `N` particles, 2 spatial
dimensions, a value for each (numpy array of shape `(N, 2)`). -/
def Arr (N : ℕ) : Type := Fin N → Fin 2 → ℝ

/-- The four initial-condition arrays built at lines 23–26 of the source. -/
structure InitialConditions (N : ℕ) where
  pos_fwd : Arr N
  vel_fwd : Arr N
  pos_rev : Arr N
  vel_rev : Arr N

/-- Lines 23–26: `pos_fwd = np.random.rand(N,2) * 10`, `vel_fwd = randn(N,2)`,
`pos_rev = pos_fwd.copy()`, `vel_rev = -vel_fwd.copy()`.  The two random draws
are inputs (`randPos` in `[0,1)` scaled by 10, `randVel` standard normal);
everything after the draws is deterministic. -/
def initParticles (N : ℕ) (randPos randVel : Arr N) : InitialConditions N :=
  { pos_fwd := fun i d => randPos i d * 10
    vel_fwd := randVel
    pos_rev := fun i d => randPos i d * 10
    vel_rev := fun i d => -randVel i d }

/-- One Euler step, line 33 / 38 of the source: `pos += vel * dt`. -/
def stepPos (N : ℕ) (vel : Arr N) (dt : ℝ) (pos : Arr N) : Arr N :=
  fun i d => pos i d + vel i d * dt

/-- The position buffer after `t` Euler increments from `pos0`. -/
def posAfter (N : ℕ) (pos0 vel : Arr N) (dt : ℝ) : ℕ → Arr N
  | 0 => pos0
  | t + 1 => stepPos N vel dt (posAfter N pos0 vel dt t)

/-- Lines 28–39: `traj = np.zeros((steps, N, 2))` followed by the fill loop
`for t in range(steps): pos += vel * dt; traj[t] = pos`.  A Python `int`
step count may be negative, and `np.zeros` with a negative dimension raises
`ValueError: negative dimensions are not allowed`; otherwise the loop stores,
at index `t`, the position after `t + 1` increments. -/
def makeTraj (N : ℕ) (steps : ℤ) (pos0 vel : Arr N) (dt : ℝ) :
    Except String (List (Arr N)) :=
  if steps < 0 then Except.error "negative dimensions are not allowed"
  else Except.ok ((List.range steps.toNat).map fun t => posAfter N pos0 vel dt (t + 1))

/-- Entry `t` of the forward trajectory `traj_fwd` (the position after `t + 1`
forward Euler increments). -/
def traj_fwd (N : ℕ) (ic : InitialConditions N) (dt : ℝ) (t : ℕ) : Arr N :=
  posAfter N ic.pos_fwd ic.vel_fwd dt (t + 1)

/-- Entry `t` of the reversed trajectory `traj_rev`. -/
def traj_rev (N : ℕ) (ic : InitialConditions N) (dt : ℝ) (t : ℕ) : Arr N :=
  posAfter N ic.pos_rev ic.vel_rev dt (t + 1)

/-! ## 2. Entropy calculation (source lines 44–55) -/

noncomputable section

/-- numpy's `.astype(int)` on a float: truncation toward zero. -/
def truncInt (x : ℝ) : ℤ := if 0 ≤ x then ⌊x⌋ else ⌈x⌉

/-- Numpy clipping `np.clip(z, 0, grid_size - 1)`, with numpy semantics
`minimum(a_max, maximum(z, a_min))`. -/
def clipIdx (G : ℕ) (z : ℤ) : ℤ := min (max z 0) ((G : ℤ) - 1)

/-- Line 48: the grid cell of one particle position,
`np.clip((p / 10 * grid_size).astype(int), 0, grid_size - 1)` per axis. -/
def cellOf (G : ℕ) (p : Fin 2 → ℝ) : ℤ × ℤ :=
  (clipIdx G (truncInt (p 0 / 10 * G)), clipIdx G (truncInt (p 1 / 10 * G)))

/-- The spec's description of the same map: `floor(position / domain_extent * G)`
per axis, clipped into `[0, G-1]` (domain extent 10).  Kept separate from
`cellOf`, which embeds the code's truncation toward zero, so the two can be
compared. -/
def cellOfSpec (G : ℕ) (p : Fin 2 → ℝ) : ℤ × ℤ :=
  (clipIdx G ⌊p 0 / 10 * G⌋, clipIdx G ⌊p 1 / 10 * G⌋)

/-- The index set of the `grid_size × grid_size` occupancy grid (line 47). -/
def cells (G : ℕ) : Finset (ℤ × ℤ) :=
  Finset.Icc 0 ((G : ℤ) - 1) ×ˢ Finset.Icc 0 ((G : ℤ) - 1)

/-- Lines 49–50: the count accumulated in grid cell `c`
(`for x, y in indices: grid[x, y] += 1`). -/
def cellCount (G N : ℕ) (pos : Arr N) (c : ℤ × ℤ) : ℕ :=
  (Finset.univ.filter fun i => cellOf G (pos i) = c).card

/-- The value `np.sum(probs)` over the flattened grid of raw counts (line 52). -/
def totalCount (G N : ℕ) (pos : Arr N) : ℝ :=
  ∑ c ∈ cells G, (cellCount G N pos c : ℝ)

/-- Lines 51–53, entropy of one time step:
`probs = probs[probs > 0] / np.sum(probs); entropy = -np.sum(probs * log(probs))`. -/
def stepEntropy (G N : ℕ) (pos : Arr N) : ℝ :=
  -∑ c ∈ (cells G).filter (fun c => 0 < cellCount G N pos c),
      (cellCount G N pos c : ℝ) / totalCount G N pos *
        Real.log ((cellCount G N pos c : ℝ) / totalCount G N pos)

/-- Lines 44–55, `compute_entropy`: one entropy value per time step. -/
def compute_entropy (G steps N : ℕ) (traj : Fin steps → Arr N) : Fin steps → ℝ :=
  fun t => stepEntropy G N (traj t)

end

/-! ## 3. Chaos analysis via pairwise distances (source lines 63–74) -/

noncomputable section

/-- The scipy Euclidean distance (`scipy.spatial.distance.euclidean`) on 2D points. -/
def euclidean (p q : Fin 2 → ℝ) : ℝ :=
  Real.sqrt ((p 0 - q 0) ^ 2 + (p 1 - q 1) ^ 2)

/-- The ordered index pairs `i < j` visited by the nested loops of lines
69–72 (`for i in range(N): for j in range(i + 1, N)`). -/
def pairIdx (N : ℕ) : Finset (Fin N × Fin N) :=
  Finset.univ.filter fun p => p.1 < p.2

/-- The distance total accumulated at one time step (lines 67, 71). -/
def pairTotal (N : ℕ) (pos : Arr N) : ℝ :=
  ∑ p ∈ pairIdx N, euclidean (pos p.1) (pos p.2)

/-- The pair count accumulated at one time step (lines 68, 72). -/
def pairCount (N : ℕ) : ℕ := (pairIdx N).card

/-- Lines 63–74, `avg_pairwise_dist`: per time step `total / count`, then
`np.log(np.array(dists) + 1e-8)`.  When fewer than 2 particles exist and the
trajectory has at least one step, `total / count` is Python's `0 / 0` on two
ints and raises `ZeroDivisionError: division by zero`. -/
def avg_pairwise_dist (steps N : ℕ) (traj : Fin steps → Arr N) :
    Except String (Fin steps → ℝ) :=
  if 0 < steps ∧ pairCount N = 0 then Except.error "division by zero"
  else Except.ok fun t => Real.log (pairTotal N (traj t) / pairCount N + 1e-8)

/-- The spec's description of the per-step average: the mean Euclidean distance
over all pairs of distinct particles (each unordered pair appears twice in
`offDiag`, which leaves the mean unchanged since the distance is symmetric). -/
def meanPairDist (N : ℕ) (pos : Arr N) : ℝ :=
  (∑ p ∈ (Finset.univ : Finset (Fin N)).offDiag, euclidean (pos p.1) (pos p.2)) /
    ((Finset.univ : Finset (Fin N)).offDiag.card : ℝ)

end

/-! ## 4. Quantum wave packet reversal (source lines 82–100) -/

noncomputable section

/-- The scipy constant `hbar`: the reduced Planck constant `h / (2π)` with
`h = 6.62607015e-34`. -/
def hbar : ℝ := 6.62607015e-34 / (2 * Real.pi)

/-- The forward discrete Fourier transform `scipy.fft.fft`,
`X_j = Σ_i x_i · exp(-2πi·i·j/n)`. -/
def fft (n : ℕ) (psi : Fin n → ℂ) : Fin n → ℂ :=
  fun j => ∑ i : Fin n,
    psi i * Complex.exp (-2 * Real.pi * Complex.I * ((i : ℕ) : ℂ) * ((j : ℕ) : ℂ) / (n : ℂ))

/-- The inverse discrete Fourier transform `scipy.fft.ifft`,
`x_i = (1/n) · Σ_j X_j · exp(2πi·i·j/n)`. -/
def ifft (n : ℕ) (X : Fin n → ℂ) : Fin n → ℂ :=
  fun i => ((n : ℂ))⁻¹ * ∑ j : Fin n,
    X j * Complex.exp (2 * Real.pi * Complex.I * ((i : ℕ) : ℂ) * ((j : ℕ) : ℂ) / (n : ℂ))

/-- Line 95: the spectral phase factor `exp(-1j * E_k * t / hbar)` with
`E_k = hbar² k² / (2 m)` (line 94). -/
def phase (kj t m : ℝ) : ℂ :=
  Complex.exp (-Complex.I * ((hbar ^ 2 * kj ^ 2 / (2 * m) : ℝ) : ℂ) * ((t : ℝ) : ℂ)
    / ((hbar : ℝ) : ℂ))

/-- Lines 92–96, `evolve`: transform to wavenumber space, apply the dispersion
phase, transform back. -/
def evolve (n : ℕ) (psi : Fin n → ℂ) (k : Fin n → ℝ) (t m : ℝ) : Fin n → ℂ :=
  ifft n fun j => fft n psi j * phase (k j) t m

end

/-! ## Helper lemmas for the classical part -/

/-- Closed form of the Euler recursion: after `t` increments the position is
`pos0 + t * vel * dt`, componentwise. -/
lemma posAfter_eq (N : ℕ) (pos0 vel : Arr N) (dt : ℝ) (t : ℕ) (i : Fin N) (d : Fin 2) :
    posAfter N pos0 vel dt t i d = pos0 i d + t * (vel i d * dt) := by
  induction t with
  | zero => simp [posAfter]
  | succ t ih =>
      simp only [posAfter, stepPos, ih]
      push_cast
      ring

/-! ## Claim theorems for the classical part -/

/-- C3: For every generated particle set, the reverse initial velocity array
is the exact elementwise negation of the forward initial velocity array, and the
reverse initial positions equal the forward initial positions. -/
theorem C3_velocity_mirror (N : ℕ) (randPos randVel : Arr N) (i : Fin N) (d : Fin 2) :
    (initParticles N randPos randVel).vel_rev i d
        = -(initParticles N randPos randVel).vel_fwd i d ∧
      (initParticles N randPos randVel).pos_rev i d
        = (initParticles N randPos randVel).pos_fwd i d := by
  exact ⟨rfl, rfl⟩

/-- C10: At every time step `t`, the forward and reverse trajectories are
point reflections of each other through the shared initial positions:
`traj_fwd[t] + traj_rev[t] = 2 * pos0` elementwise. -/
theorem C10_point_reflection (N : ℕ) (randPos randVel : Arr N) (dt : ℝ) (t : ℕ)
    (i : Fin N) (d : Fin 2) :
    traj_fwd N (initParticles N randPos randVel) dt t i d
        + traj_rev N (initParticles N randPos randVel) dt t i d
      = 2 * (initParticles N randPos randVel).pos_fwd i d := by
  simp only [traj_fwd, traj_rev, posAfter_eq, initParticles]
  ring

/-- C9 counterexample: With step count `-1` the integrator does not yield an
empty trajectory: `np.zeros((-1, N, 2))` raises, so `makeTraj` returns an error
rather than an empty list. -/
theorem C9_counterexample :
    makeTraj 1 (-1) (fun _ _ => 0) (fun _ _ => 0) (1 / 10)
      = Except.error "negative dimensions are not allowed" := by
  rfl

/-- C9 amended: A non-positive step count never raises only in the zero
case: step count `0` yields an empty trajectory (first axis length 0) without
raising, while a negative step count makes the zero-array allocation raise. -/
theorem C9_amended (N : ℕ) (steps : ℤ) (pos0 vel : Arr N) (dt : ℝ)
    (h : steps ≤ 0) :
    makeTraj N steps pos0 vel dt
      = if steps < 0 then Except.error "negative dimensions are not allowed"
        else Except.ok [] := by
  unfold makeTraj
  rcases lt_or_eq_of_le h with h' | h'
  · simp [h']
  · simp [h'.symm]

/-- Witness for C9 (amended) at the concrete step count `0`. -/
theorem C9_amended_witness :
    (0 : ℤ) ≤ 0 ∧
      makeTraj 1 0 (fun _ _ => 0) (fun _ _ => 0) (1 / 10)
        = if (0 : ℤ) < 0 then Except.error "negative dimensions are not allowed"
          else Except.ok [] :=
  ⟨le_refl 0, C9_amended 1 0 (fun _ _ => 0) (fun _ _ => 0) (1 / 10) (le_refl 0)⟩

/-! ## Helper lemmas for the entropy part -/

/-- After clipping into `[0, G-1]`, truncation toward zero and flooring bin a
coordinate identically: for negative values both land at the boundary cell 0. -/
lemma clipIdx_truncInt_eq (G : ℕ) (x : ℝ) : clipIdx G (truncInt x) = clipIdx G ⌊x⌋ := by
  unfold truncInt clipIdx
  by_cases hx : 0 ≤ x
  · simp [hx]
  · have hx' : x ≤ 0 := le_of_not_le hx
    have hceil : ⌈x⌉ ≤ 0 := Int.ceil_le.2 (by exact_mod_cast hx')
    have hfloor : ⌊x⌋ ≤ 0 := le_trans (Int.floor_le_ceil x) hceil
    simp [hx, max_eq_right hceil, max_eq_right hfloor]

/-- Every position is binned into a cell of the grid when `G ≥ 1`. -/
lemma cellOf_mem_cells (G : ℕ) (hG : 0 < G) (p : Fin 2 → ℝ) : cellOf G p ∈ cells G := by
  have hG1 : (0 : ℤ) ≤ (G : ℤ) - 1 := by
    have : (1 : ℤ) ≤ G := by exact_mod_cast hG
    omega
  have h : ∀ z : ℤ, clipIdx G z ∈ Finset.Icc 0 ((G : ℤ) - 1) := by
    intro z
    rw [Finset.mem_Icc]
    constructor
    · exact le_min (le_max_right z 0) hG1
    · exact min_le_right _ _
  exact Finset.mem_product.2 ⟨h _, h _⟩

/-- The per-step cell counts sum to the particle count `N` when `G ≥ 1`. -/
lemma sum_cellCount (G N : ℕ) (hG : 0 < G) (pos : Arr N) :
    ∑ c ∈ cells G, cellCount G N pos c = N := by
  unfold cellCount
  have := Finset.card_eq_sum_card_fiberwise
    (f := fun i : Fin N => cellOf G (pos i)) (s := Finset.univ) (t := cells G)
    (fun i _ => cellOf_mem_cells G hG (pos i))
  simpa using this.symm

/-- A single cell's count never exceeds the particle count. -/
lemma cellCount_le (G N : ℕ) (pos : Arr N) (c : ℤ × ℤ) : cellCount G N pos c ≤ N := by
  simpa [cellCount] using Finset.card_filter_le Finset.univ (fun i => cellOf G (pos i) = c)

/-- With `G ≥ 1`, `np.sum(probs)` over the raw counts is exactly `N`. -/
lemma totalCount_eq (G N : ℕ) (hG : 0 < G) (pos : Arr N) : totalCount G N pos = N := by
  unfold totalCount
  rw [← Nat.cast_sum]
  exact_mod_cast congrArg (Nat.cast (R := ℝ)) (sum_cellCount G N hG pos)

/-- Gibbs' inequality specialised to a finite support: a probability vector
that is positive on `S` and sums to 1 has Shannon entropy at most `log m` for
any real `m ≥ |S|`. -/
lemma entropy_le_log_of_card_le {α : Type} [DecidableEq α] (S : Finset α) (p : α → ℝ)
    (m : ℝ) (hp : ∀ c ∈ S, 0 < p c) (hsum : ∑ c ∈ S, p c = 1)
    (hm : (S.card : ℝ) ≤ m) :
    -∑ c ∈ S, p c * Real.log (p c) ≤ Real.log m := by
  have hS : S.Nonempty := by
    rcases S.eq_empty_or_nonempty with h | h
    · exfalso; rw [h, Finset.sum_empty] at hsum; norm_num at hsum
    · exact h
  have hcard : (1 : ℝ) ≤ S.card := by exact_mod_cast Finset.Nonempty.card_pos hS
  have hm0 : (0 : ℝ) < m := lt_of_lt_of_le (by linarith) hm
  have key : ∀ c ∈ S, p c * (-Real.log m - Real.log (p c)) ≤ 1 / m - p c := by
    intro c hc
    have hpc := hp c hc
    have h1 : Real.log (1 / (m * p c)) ≤ 1 / (m * p c) - 1 :=
      Real.log_le_sub_one_of_pos (by positivity)
    have h2 : Real.log (1 / (m * p c)) = -Real.log m - Real.log (p c) := by
      rw [one_div, Real.log_inv, Real.log_mul (ne_of_gt hm0) (ne_of_gt hpc)]
      ring
    rw [h2] at h1
    have h3 := mul_le_mul_of_nonneg_left h1 (le_of_lt hpc)
    calc p c * (-Real.log m - Real.log (p c))
        ≤ p c * (1 / (m * p c) - 1) := h3
      _ = 1 / m - p c := by field_simp; ring
  have hsumle : ∑ c ∈ S, p c * (-Real.log m - Real.log (p c))
      ≤ ∑ c ∈ S, (1 / m - p c) := Finset.sum_le_sum key
  have hrhs : ∑ c ∈ S, (1 / m - p c) = S.card / m - 1 := by
    rw [Finset.sum_sub_distrib, hsum, Finset.sum_const, nsmul_eq_mul]
    ring
  have hrhs' : (S.card : ℝ) / m - 1 ≤ 0 := by
    have : (S.card : ℝ) / m ≤ 1 := (div_le_one hm0).2 hm
    linarith
  have hlhs : ∑ c ∈ S, p c * (-Real.log m - Real.log (p c))
      = -Real.log m - ∑ c ∈ S, p c * Real.log (p c) := by
    have : ∀ c ∈ S, p c * (-Real.log m - Real.log (p c))
        = -(Real.log m * p c) - p c * Real.log (p c) := by
      intro c _; ring
    rw [Finset.sum_congr rfl this, Finset.sum_sub_distrib]
    have h5 : ∑ c ∈ S, -(Real.log m * p c) = -Real.log m := by
      rw [Finset.sum_neg_distrib, ← Finset.mul_sum, hsum, mul_one]
    rw [h5]
  rw [hlhs, hrhs] at hsumle
  linarith

/-- At most `N` cells carry positive count (each occupied cell holds at least
one of the `N` particles). -/
lemma support_card_le_N (G N : ℕ) (pos : Arr N) :
    ((cells G).filter (fun c => 0 < cellCount G N pos c)).card ≤ N := by
  have hsub : (cells G).filter (fun c => 0 < cellCount G N pos c)
      ⊆ Finset.image (fun i : Fin N => cellOf G (pos i)) Finset.univ := by
    intro c hc
    rw [Finset.mem_filter] at hc
    have hne : ((Finset.univ.filter fun i => cellOf G (pos i) = c)).Nonempty :=
      Finset.card_pos.1 hc.2
    rcases hne with ⟨i, hi⟩
    rw [Finset.mem_filter] at hi
    exact Finset.mem_image.2 ⟨i, Finset.mem_univ i, hi.2⟩
  calc ((cells G).filter (fun c => 0 < cellCount G N pos c)).card
      ≤ (Finset.image (fun i : Fin N => cellOf G (pos i)) Finset.univ).card :=
        Finset.card_le_card hsub
    _ ≤ (Finset.univ : Finset (Fin N)).card := Finset.card_image_le
    _ = N := by simp

/-- The occupancy grid has exactly `G²` cells. -/
lemma cells_card (G : ℕ) : (cells G).card = G ^ 2 := by
  unfold cells
  rw [Finset.card_product, Int.card_Icc]
  have h : ((G : ℤ) - 1 + 1 - 0).toNat = G := by omega
  rw [h]
  ring

/-- The support of the occupancy distribution has at most `G²` cells. -/
lemma support_card_le_sq (G N : ℕ) (pos : Arr N) :
    ((cells G).filter (fun c => 0 < cellCount G N pos c)).card ≤ G ^ 2 := by
  calc ((cells G).filter (fun c => 0 < cellCount G N pos c)).card
      ≤ (cells G).card := Finset.card_filter_le _ _
    _ = G ^ 2 := cells_card G

/-- The counts restricted to the positive-count support still sum to `N`. -/
lemma sum_support_cellCount (G N : ℕ) (hG : 0 < G) (pos : Arr N) :
    ∑ c ∈ (cells G).filter (fun c => 0 < cellCount G N pos c),
        (cellCount G N pos c : ℝ) = N := by
  rw [Finset.sum_filter_of_ne]
  · rw [← Nat.cast_sum, sum_cellCount G N hG pos]
  · intro c _ hc
    rcases Nat.eq_zero_or_pos (cellCount G N pos c) with h | h
    · exact absurd (by rw [h]; norm_num) hc
    · exact h

/-- The per-step entropy is nonnegative. -/
lemma stepEntropy_nonneg (G N : ℕ) (hG : 0 < G) (pos : Arr N) :
    0 ≤ stepEntropy G N pos := by
  unfold stepEntropy
  rw [neg_nonneg]
  apply Finset.sum_nonpos
  intro c hc
  rw [Finset.mem_filter] at hc
  have hc1 : (0 : ℝ) < cellCount G N pos c := by exact_mod_cast hc.2
  have htot : totalCount G N pos = N := totalCount_eq G N hG pos
  have hle : (cellCount G N pos c : ℝ) ≤ N := by exact_mod_cast cellCount_le G N pos c
  have hNpos : (0 : ℝ) < N := lt_of_lt_of_le hc1 hle
  have hp0 : 0 ≤ (cellCount G N pos c : ℝ) / totalCount G N pos := by
    rw [htot]; positivity
  have hp1 : (cellCount G N pos c : ℝ) / totalCount G N pos ≤ 1 := by
    rw [htot]; exact (div_le_one hNpos).2 hle
  exact Real.mul_log_nonpos hp0 hp1

/-- The per-step entropy is at most `log (min N G²)`. -/
lemma stepEntropy_le (G N : ℕ) (hG : 0 < G) (hN : 0 < N) (pos : Arr N) :
    stepEntropy G N pos ≤ Real.log ((min N (G ^ 2) : ℕ) : ℝ) := by
  have htot : totalCount G N pos = N := totalCount_eq G N hG pos
  have hNpos : (0 : ℝ) < N := by exact_mod_cast hN
  unfold stepEntropy
  rw [htot]
  apply entropy_le_log_of_card_le
  · intro c hc
    rw [Finset.mem_filter] at hc
    have hc1 : (0 : ℝ) < cellCount G N pos c := by exact_mod_cast hc.2
    positivity
  · rw [← Finset.sum_div, sum_support_cellCount G N hG pos, div_self (ne_of_gt hNpos)]
  · have h1 := support_card_le_N G N pos
    have h2 := support_card_le_sq G N pos
    exact_mod_cast Nat.cast_le.2 (le_min h1 h2)

/-! ## Claim theorems for the entropy part -/

/-- C4: For every trajectory with `N` particles and grid resolution `G`
(both positive), the entropy computed by `compute_entropy` at each time step
satisfies `0 ≤ entropy ≤ ln (min N G²)`. -/
theorem C4_entropy_bounds (G steps N : ℕ) (traj : Fin steps → Arr N) (t : Fin steps)
    (hG : 0 < G) (hN : 0 < N) :
    0 ≤ compute_entropy G steps N traj t ∧
      compute_entropy G steps N traj t ≤ Real.log ((min N (G ^ 2) : ℕ) : ℝ) :=
  ⟨stepEntropy_nonneg G N hG (traj t), stepEntropy_le G N hG hN (traj t)⟩

/-- Witness for C4 at `G = 1`, `N = 1`, a one-step trajectory at the origin. -/
theorem C4_entropy_bounds_witness :
    0 < 1 ∧ 0 < 1 ∧
      (0 ≤ compute_entropy 1 1 1 (fun _ _ _ => (0 : ℝ)) 0 ∧
        compute_entropy 1 1 1 (fun _ _ _ => (0 : ℝ)) 0
          ≤ Real.log ((min 1 (1 ^ 2) : ℕ) : ℝ)) :=
  ⟨by decide, by decide,
    C4_entropy_bounds 1 1 1 (fun _ _ _ => (0 : ℝ)) 0 (by decide) (by decide)⟩

/-- C5: Every particle position maps to exactly one grid cell: the code's
truncation-based cell map agrees with the spec's floor-based description after
clipping into `[0, G-1]`, positions outside the domain are clamped into the
grid rather than dropped, and the per-step cell counts sum to `N`. -/
theorem C5_cell_binning (G N : ℕ) (pos : Arr N) (hG : 0 < G) :
    (∀ p : Fin 2 → ℝ, cellOf G p = cellOfSpec G p) ∧
      (∀ p : Fin 2 → ℝ, cellOf G p ∈ cells G) ∧
      ∑ c ∈ cells G, cellCount G N pos c = N := by
  refine ⟨fun p => ?_, fun p => cellOf_mem_cells G hG p, sum_cellCount G N hG pos⟩
  unfold cellOf cellOfSpec
  rw [clipIdx_truncInt_eq, clipIdx_truncInt_eq]

/-- Witness for C5 at `G = 1`, `N = 1`, one particle at the origin. -/
theorem C5_cell_binning_witness :
    0 < 1 ∧
      ((∀ p : Fin 2 → ℝ, cellOf 1 p = cellOfSpec 1 p) ∧
        (∀ p : Fin 2 → ℝ, cellOf 1 p ∈ cells 1) ∧
        ∑ c ∈ cells 1, cellCount 1 1 (fun _ _ => (0 : ℝ)) c = 1) :=
  ⟨by decide, C5_cell_binning 1 1 (fun _ _ => (0 : ℝ)) (by decide)⟩

/-- C6: For any time step at which all `N` particles occupy the same grid
cell, the entropy computed by `compute_entropy` for that step is exactly 0. -/
theorem C6_entropy_collapse (G steps N : ℕ) (traj : Fin steps → Arr N) (t : Fin steps)
    (hG : 0 < G) (hN : 0 < N) (c₀ : ℤ × ℤ)
    (hall : ∀ i : Fin N, cellOf G (traj t i) = c₀) :
    compute_entropy G steps N traj t = 0 := by
  have htot : totalCount G N (traj t) = N := totalCount_eq G N hG (traj t)
  have hc0N : cellCount G N (traj t) c₀ = N := by
    unfold cellCount
    rw [Finset.filter_true_of_mem (fun i _ => hall i)]
    simp
  have hc0mem : c₀ ∈ cells G := by
    have h := cellOf_mem_cells G hG (traj t ⟨0, hN⟩)
    rwa [hall ⟨0, hN⟩] at h
  have hzero : ∀ c, c ≠ c₀ → cellCount G N (traj t) c = 0 := by
    intro c hc
    unfold cellCount
    rw [Finset.card_eq_zero, Finset.filter_eq_empty_iff]
    intro i _
    rw [hall i]
    exact fun h => hc h.symm
  have hS : (cells G).filter (fun c => 0 < cellCount G N (traj t) c) = {c₀} := by
    apply Finset.ext
    intro c
    rw [Finset.mem_filter, Finset.mem_singleton]
    constructor
    · rintro ⟨_, hpos'⟩
      by_contra hne
      rw [hzero c hne] at hpos'
      exact lt_irrefl 0 hpos'
    · rintro rfl
      exact ⟨hc0mem, by rw [hc0N]; exact hN⟩
  show stepEntropy G N (traj t) = 0
  unfold stepEntropy
  rw [hS, Finset.sum_singleton, hc0N, htot,
    div_self (ne_of_gt (by exact_mod_cast hN : (0 : ℝ) < N))]
  simp

/-- Witness for C6: one particle at the origin, `G = 1`, all mass in cell
`(0, 0)`, entropy 0. -/
theorem C6_entropy_collapse_witness :
    0 < 1 ∧ (∀ i : Fin 1, cellOf 1 ((fun _ _ _ => (0 : ℝ)) (0 : Fin 1) i) = (0, 0)) ∧
      compute_entropy 1 1 1 (fun _ _ _ => (0 : ℝ)) 0 = 0 :=
  ⟨by decide, fun i => by simp [cellOf, truncInt, clipIdx],
    C6_entropy_collapse 1 1 1 (fun _ _ _ => (0 : ℝ)) 0 (by decide) (by decide) (0, 0)
      (fun i => by simp [cellOf, truncInt, clipIdx])⟩

/-! ## Helper lemmas for the chaos part -/

/-- The Euclidean distance is symmetric in its arguments. -/
lemma euclidean_symm (p q : Fin 2 → ℝ) : euclidean p q = euclidean q p := by
  unfold euclidean
  ring_nf

/-- A sum of a symmetric function over all ordered pairs of distinct indices is
twice its sum over the pairs `i < j`. -/
lemma sum_offDiag_eq_two_mul (N : ℕ) (f : Fin N → Fin N → ℝ)
    (hf : ∀ i j, f i j = f j i) :
    ∑ p ∈ (Finset.univ : Finset (Fin N)).offDiag, f p.1 p.2
      = 2 * ∑ p ∈ pairIdx N, f p.1 p.2 := by
  rw [← Finset.sum_filter_add_sum_filter_not
    ((Finset.univ : Finset (Fin N)).offDiag) (fun p => p.1 < p.2)]
  have h1 : ((Finset.univ : Finset (Fin N)).offDiag).filter (fun p => p.1 < p.2)
      = pairIdx N := by
    apply Finset.ext
    intro p
    rw [Finset.mem_filter, Finset.mem_offDiag]
    unfold pairIdx
    rw [Finset.mem_filter]
    constructor
    · rintro ⟨⟨_, _, _⟩, hlt⟩
      exact ⟨Finset.mem_univ p, hlt⟩
    · rintro ⟨_, hlt⟩
      exact ⟨⟨Finset.mem_univ _, Finset.mem_univ _, ne_of_lt hlt⟩, hlt⟩
  have h2 : ∑ p ∈ ((Finset.univ : Finset (Fin N)).offDiag).filter
        (fun p => ¬p.1 < p.2), f p.1 p.2
      = ∑ p ∈ pairIdx N, f p.1 p.2 := by
    apply Finset.sum_equiv (Equiv.prodComm (Fin N) (Fin N))
    · intro p
      unfold pairIdx
      rw [Finset.mem_filter, Finset.mem_filter, Finset.mem_offDiag]
      simp only [Equiv.prodComm_apply, Prod.fst_swap, Prod.snd_swap]
      constructor
      · rintro ⟨⟨_, _, hne⟩, hnlt⟩
        exact ⟨Finset.mem_univ _, lt_of_le_of_ne (not_lt.1 hnlt) (Ne.symm hne)⟩
      · rintro ⟨_, hlt⟩
        exact ⟨⟨Finset.mem_univ _, Finset.mem_univ _, Ne.symm (ne_of_lt hlt)⟩,
          not_lt.2 (le_of_lt hlt)⟩
    · intro p _
      exact hf p.1 p.2
  rw [h1, h2]
  ring

/-- `offDiag` holds exactly twice as many index pairs as the loops visit. -/
lemma offDiag_card_eq (N : ℕ) :
    (((Finset.univ : Finset (Fin N)).offDiag.card : ℝ)) = 2 * pairCount N := by
  have h := sum_offDiag_eq_two_mul N (fun _ _ => (1 : ℝ)) (fun _ _ => rfl)
  simpa [Finset.sum_const, pairCount] using h

/-- The code's per-step average `total / count` is the spec's mean pairwise
distance over distinct pairs. -/
lemma pairTotal_div_eq_meanPairDist (N : ℕ) (pos : Arr N) :
    pairTotal N pos / pairCount N = meanPairDist N pos := by
  unfold meanPairDist
  rw [offDiag_card_eq N,
    sum_offDiag_eq_two_mul N (fun i j => euclidean (pos i) (pos j))
      (fun i j => euclidean_symm (pos i) (pos j))]
  rw [mul_div_mul_left _ _ (two_ne_zero)]
  rfl

/-- There is at least one pair when `N ≥ 2`. -/
lemma pairCount_pos (N : ℕ) (hN : 2 ≤ N) : 0 < pairCount N := by
  apply Finset.card_pos.2
  exact ⟨(⟨0, by omega⟩, ⟨1, by omega⟩), by
    simp only [pairIdx, Finset.mem_filter, Finset.mem_univ, true_and]
    exact Fin.mk_lt_mk.2 (by omega)⟩

/-- The mean pairwise distance is nonnegative. -/
lemma meanPairDist_nonneg (N : ℕ) (pos : Arr N) : 0 ≤ meanPairDist N pos := by
  unfold meanPairDist
  apply div_nonneg
  · apply Finset.sum_nonneg
    intro p _
    exact Real.sqrt_nonneg _
  · positivity

/-! ## Claim theorems for the chaos part -/

/-- C7: For every trajectory with `N ≥ 2` particles, the chaos series is
produced without error, its value at each step is the natural logarithm of the
mean pairwise distance over distinct particles plus the stabilizing constant
`1e-8`, and the argument of the logarithm is strictly positive — so every
chaos value is the real logarithm of a positive real (finite, no NaN/inf). -/
theorem C7_chaos_value (steps N : ℕ) (traj : Fin steps → Arr N) (hN : 2 ≤ N) :
    avg_pairwise_dist steps N traj
        = Except.ok (fun t => Real.log (meanPairDist N (traj t) + 1e-8)) ∧
      ∀ t : Fin steps, 0 < meanPairDist N (traj t) + 1e-8 := by
  have hc : pairCount N ≠ 0 := Nat.pos_iff_ne_zero.1 (pairCount_pos N hN)
  constructor
  · unfold avg_pairwise_dist
    rw [if_neg (by intro h; exact hc h.2)]
    congr 1
    funext t
    rw [pairTotal_div_eq_meanPairDist N (traj t)]
  · intro t
    have h := meanPairDist_nonneg N (traj t)
    have h8 : (0 : ℝ) < 1e-8 := by norm_num
    linarith

/-- Witness for C7 at `N = 2` particles, one step, both particles at the
origin. -/
theorem C7_chaos_value_witness :
    2 ≤ 2 ∧
      (avg_pairwise_dist 1 2 (fun _ _ _ => (0 : ℝ))
          = Except.ok
              (fun _t : Fin 1 => Real.log (meanPairDist 2 (fun _ _ => (0 : ℝ)) + 1e-8)) ∧
        ∀ _t : Fin 1, 0 < meanPairDist 2 (fun _ _ => (0 : ℝ)) + 1e-8) :=
  ⟨by decide, C7_chaos_value 1 2 (fun _ _ _ => (0 : ℝ)) (by decide)⟩

/-- C8: With fewer than 2 particles (zero unordered pairs) and at least one
time step, the chaos computation raises (`0 / 0` on Python ints) instead of
silently returning a degenerate value. -/
theorem C8_raises_without_pairs (steps N : ℕ) (traj : Fin steps → Arr N)
    (hsteps : 0 < steps) (hN : N < 2) :
    avg_pairwise_dist steps N traj = Except.error "division by zero" := by
  have hc : pairCount N = 0 := by
    interval_cases N
    · decide
    · decide
  unfold avg_pairwise_dist
  rw [if_pos ⟨hsteps, hc⟩]

/-- Witness for C8: one particle, one step. -/
theorem C8_raises_without_pairs_witness :
    0 < 1 ∧ 1 < 2 ∧
      avg_pairwise_dist 1 1 (fun _ _ _ => (0 : ℝ)) = Except.error "division by zero" :=
  ⟨by decide, by decide,
    C8_raises_without_pairs 1 1 (fun _ _ _ => (0 : ℝ)) (by decide) (by decide)⟩

/-! ## Helper lemmas for the spectral part -/

/-- Orthogonality of the DFT characters: summing `exp(2πi(a-b)j/n)` over `j`
gives `n` on the diagonal and 0 off it. -/
lemma sum_exp_orthogonal (n : ℕ) (a b : Fin n) :
    ∑ j : Fin n, Complex.exp (2 * Real.pi * Complex.I *
        (((a : ℕ) : ℂ) - ((b : ℕ) : ℂ)) * ((j : ℕ) : ℂ) / (n : ℂ))
      = if a = b then (n : ℂ) else 0 := by
  have hn : 0 < n := a.pos
  have hn' : (n : ℂ) ≠ 0 := Nat.cast_ne_zero.2 hn.ne'
  set w : ℂ := Complex.exp (2 * Real.pi * Complex.I *
    (((a : ℕ) : ℂ) - ((b : ℕ) : ℂ)) / (n : ℂ)) with hw
  have hterm : ∀ j : Fin n,
      Complex.exp (2 * Real.pi * Complex.I *
          (((a : ℕ) : ℂ) - ((b : ℕ) : ℂ)) * ((j : ℕ) : ℂ) / (n : ℂ))
        = w ^ (j : ℕ) := by
    intro j
    rw [hw, ← Complex.exp_nat_mul]
    congr 1
    ring
  rw [Finset.sum_congr rfl (fun j _ => hterm j),
    Fin.sum_univ_eq_sum_range (fun j => w ^ j) n]
  by_cases hab : a = b
  · subst hab
    have hw1 : w = 1 := by
      rw [hw, sub_self, mul_zero, zero_div, Complex.exp_zero]
    rw [if_pos rfl, hw1]
    simp
  · have hvalne : ((a : ℕ) : ℤ) ≠ ((b : ℕ) : ℤ) := by
      intro h
      exact hab (Fin.ext (by exact_mod_cast h))
    have hwpow : w ^ n = 1 := by
      rw [hw, ← Complex.exp_nat_mul]
      have harg : (n : ℂ) * (2 * Real.pi * Complex.I *
          (((a : ℕ) : ℂ) - ((b : ℕ) : ℂ)) / (n : ℂ))
          = ((((a : ℕ) : ℤ) - ((b : ℕ) : ℤ) : ℤ) : ℂ) * (2 * Real.pi * Complex.I) := by
        field_simp
        ring
      rw [harg, Complex.exp_int_mul_two_pi_mul_I]
    have hwne : w ≠ 1 := by
      rw [hw, Ne, Complex.exp_eq_one_iff]
      rintro ⟨m, hm⟩
      rw [div_eq_iff hn'] at hm
      have hm' : (2 * (Real.pi : ℂ) * Complex.I) * (((a : ℕ) : ℂ) - ((b : ℕ) : ℂ))
          = (2 * (Real.pi : ℂ) * Complex.I) * ((m : ℂ) * (n : ℂ)) := by
        rw [hm]
        ring
      have h2πI : (2 * (Real.pi : ℂ) * Complex.I) ≠ 0 := by
        apply mul_ne_zero
        · apply mul_ne_zero two_ne_zero
          exact Complex.ofReal_ne_zero.2 Real.pi_ne_zero
        · exact Complex.I_ne_zero
      have hab' : (((a : ℕ) : ℂ) - ((b : ℕ) : ℂ)) = (m : ℂ) * (n : ℂ) :=
        mul_left_cancel₀ h2πI hm'
      have hz : ((a : ℕ) : ℤ) - ((b : ℕ) : ℤ) = m * (n : ℤ) := by
        exact_mod_cast hab'
      have habs : |((a : ℕ) : ℤ) - ((b : ℕ) : ℤ)| < (n : ℤ) := by
        have ha := a.isLt
        have hb := b.isLt
        rw [abs_sub_lt_iff]
        omega
      have hdvd : (n : ℤ) ∣ ((a : ℕ) : ℤ) - ((b : ℕ) : ℤ) := ⟨m, by rw [hz]; ring⟩
      have h0 := Int.eq_zero_of_abs_lt_dvd hdvd habs
      omega
    rw [if_neg hab, geom_sum_eq hwne, hwpow, sub_self, zero_div]

/-- The inverse transform undoes the forward transform exactly. -/
lemma ifft_fft (n : ℕ) (psi : Fin n → ℂ) : ifft n (fft n psi) = psi := by
  funext i
  have hn' : (n : ℂ) ≠ 0 := Nat.cast_ne_zero.2 i.pos.ne'
  show ((n : ℂ))⁻¹ * ∑ j : Fin n,
      (∑ i' : Fin n, psi i' * Complex.exp (-2 * Real.pi * Complex.I *
          ((i' : ℕ) : ℂ) * ((j : ℕ) : ℂ) / (n : ℂ))) *
        Complex.exp (2 * Real.pi * Complex.I * ((i : ℕ) : ℂ) * ((j : ℕ) : ℂ) / (n : ℂ))
      = psi i
  have hstep : ∀ j : Fin n,
      (∑ i' : Fin n, psi i' * Complex.exp (-2 * Real.pi * Complex.I *
          ((i' : ℕ) : ℂ) * ((j : ℕ) : ℂ) / (n : ℂ))) *
        Complex.exp (2 * Real.pi * Complex.I * ((i : ℕ) : ℂ) * ((j : ℕ) : ℂ) / (n : ℂ))
      = ∑ i' : Fin n, psi i' * Complex.exp (2 * Real.pi * Complex.I *
          (((i : ℕ) : ℂ) - ((i' : ℕ) : ℂ)) * ((j : ℕ) : ℂ) / (n : ℂ)) := by
    intro j
    rw [Finset.sum_mul]
    apply Finset.sum_congr rfl
    intro i' _
    rw [mul_assoc, ← Complex.exp_add]
    congr 1
    ring_nf
  rw [Finset.sum_congr rfl (fun j _ => hstep j), Finset.sum_comm]
  have hinner : ∀ i' : Fin n,
      ∑ j : Fin n, psi i' * Complex.exp (2 * Real.pi * Complex.I *
          (((i : ℕ) : ℂ) - ((i' : ℕ) : ℂ)) * ((j : ℕ) : ℂ) / (n : ℂ))
      = psi i' * (if i = i' then (n : ℂ) else 0) := by
    intro i'
    rw [← Finset.mul_sum, sum_exp_orthogonal n i i']
  rw [Finset.sum_congr rfl (fun i' _ => hinner i')]
  simp only [mul_ite, mul_zero, Finset.sum_ite_eq, Finset.mem_univ, if_true]
  field_simp

/-- The forward transform undoes the inverse transform exactly. -/
lemma fft_ifft (n : ℕ) (X : Fin n → ℂ) : fft n (ifft n X) = X := by
  funext j
  have hn' : (n : ℂ) ≠ 0 := Nat.cast_ne_zero.2 j.pos.ne'
  show ∑ i : Fin n,
      (((n : ℂ))⁻¹ * ∑ j' : Fin n, X j' * Complex.exp (2 * Real.pi * Complex.I *
          ((i : ℕ) : ℂ) * ((j' : ℕ) : ℂ) / (n : ℂ))) *
        Complex.exp (-2 * Real.pi * Complex.I * ((i : ℕ) : ℂ) * ((j : ℕ) : ℂ) / (n : ℂ))
      = X j
  have hstep : ∀ i : Fin n,
      (((n : ℂ))⁻¹ * ∑ j' : Fin n, X j' * Complex.exp (2 * Real.pi * Complex.I *
          ((i : ℕ) : ℂ) * ((j' : ℕ) : ℂ) / (n : ℂ))) *
        Complex.exp (-2 * Real.pi * Complex.I * ((i : ℕ) : ℂ) * ((j : ℕ) : ℂ) / (n : ℂ))
      = ((n : ℂ))⁻¹ * ∑ j' : Fin n, X j' * Complex.exp (2 * Real.pi * Complex.I *
          (((j' : ℕ) : ℂ) - ((j : ℕ) : ℂ)) * ((i : ℕ) : ℂ) / (n : ℂ)) := by
    intro i
    rw [mul_assoc, Finset.sum_mul]
    congr 1
    apply Finset.sum_congr rfl
    intro j' _
    rw [mul_assoc, ← Complex.exp_add]
    congr 1
    ring_nf
  rw [Finset.sum_congr rfl (fun i _ => hstep i), ← Finset.mul_sum, Finset.sum_comm]
  have hinner : ∀ j' : Fin n,
      ∑ i : Fin n, X j' * Complex.exp (2 * Real.pi * Complex.I *
          (((j' : ℕ) : ℂ) - ((j : ℕ) : ℂ)) * ((i : ℕ) : ℂ) / (n : ℂ))
      = X j' * (if j' = j then (n : ℂ) else 0) := by
    intro j'
    rw [← Finset.mul_sum, sum_exp_orthogonal n j' j]
  rw [Finset.sum_congr rfl (fun j' _ => hinner j')]
  simp only [mul_ite, mul_zero, Finset.sum_ite_eq', Finset.mem_univ, if_true]
  field_simp

/-- Evolving by `t` and then by `-t` multiplies each wavenumber component by
conjugate phases that cancel exactly. -/
lemma phase_mul_phase_neg (kj t m : ℝ) : phase kj t m * phase kj (-t) m = 1 := by
  unfold phase
  rw [← Complex.exp_add]
  have harg : -Complex.I * ((hbar ^ 2 * kj ^ 2 / (2 * m) : ℝ) : ℂ) * ((t : ℝ) : ℂ)
        / ((hbar : ℝ) : ℂ)
      + -Complex.I * ((hbar ^ 2 * kj ^ 2 / (2 * m) : ℝ) : ℂ) * (((-t) : ℝ) : ℂ)
        / ((hbar : ℝ) : ℂ) = 0 := by
    push_cast
    ring
  rw [harg, Complex.exp_zero]

/-- The spectral phase factor has unit modulus: `phase · conj phase = 1`. -/
lemma phase_mul_conj (kj t m : ℝ) :
    phase kj t m * (starRingEnd ℂ) (phase kj t m) = 1 := by
  unfold phase
  rw [← Complex.exp_conj, ← Complex.exp_add]
  have harg : -Complex.I * ((hbar ^ 2 * kj ^ 2 / (2 * m) : ℝ) : ℂ) * ((t : ℝ) : ℂ)
        / ((hbar : ℝ) : ℂ)
      + (starRingEnd ℂ) (-Complex.I * ((hbar ^ 2 * kj ^ 2 / (2 * m) : ℝ) : ℂ)
        * ((t : ℝ) : ℂ) / ((hbar : ℝ) : ℂ)) = 0 := by
    simp only [map_div₀, map_mul, map_neg, Complex.conj_I, Complex.conj_ofReal]
    ring
  rw [harg, Complex.exp_zero]

/-- Discrete Parseval identity: the squared-modulus mass of a signal is `1/n`
times that of its forward transform. -/
lemma parseval_aux (n : ℕ) (psi : Fin n → ℂ) :
    ∑ i : Fin n, psi i * (starRingEnd ℂ) (psi i)
      = ((n : ℂ))⁻¹ * ∑ j : Fin n, fft n psi j * (starRingEnd ℂ) (fft n psi j) := by
  have h2 : ∀ j : Fin n, (starRingEnd ℂ) (fft n psi j)
      = ∑ i : Fin n, (starRingEnd ℂ) (psi i) *
          Complex.exp (2 * Real.pi * Complex.I * ((i : ℕ) : ℂ) * ((j : ℕ) : ℂ) / (n : ℂ)) := by
    intro j
    unfold fft
    rw [map_sum]
    apply Finset.sum_congr rfl
    intro i _
    rw [map_mul, ← Complex.exp_conj]
    congr 1
    simp only [map_div₀, map_mul, map_neg, Complex.conj_I, Complex.conj_ofReal,
      map_natCast, map_ofNat]
    ring_nf
  have h3 : ∀ i : Fin n, psi i * (starRingEnd ℂ) (psi i)
      = ∑ j : Fin n, ((n : ℂ))⁻¹ * ((starRingEnd ℂ) (psi i) * (fft n psi j *
          Complex.exp (2 * Real.pi * Complex.I * ((i : ℕ) : ℂ) * ((j : ℕ) : ℂ) / (n : ℂ)))) := by
    intro i
    have hi : psi i = ifft n (fft n psi) i := (congrFun (ifft_fft n psi) i).symm
    nth_rewrite 1 [hi]
    show (((n : ℂ))⁻¹ * ∑ j : Fin n, fft n psi j *
        Complex.exp (2 * Real.pi * Complex.I * ((i : ℕ) : ℂ) * ((j : ℕ) : ℂ) / (n : ℂ)))
          * (starRingEnd ℂ) (psi i) = _
    rw [Finset.mul_sum, Finset.sum_mul]
    apply Finset.sum_congr rfl
    intro j _
    ring
  calc ∑ i : Fin n, psi i * (starRingEnd ℂ) (psi i)
      = ∑ i : Fin n, ∑ j : Fin n, ((n : ℂ))⁻¹ * ((starRingEnd ℂ) (psi i) * (fft n psi j *
          Complex.exp (2 * Real.pi * Complex.I * ((i : ℕ) : ℂ) * ((j : ℕ) : ℂ) / (n : ℂ)))) :=
        Finset.sum_congr rfl (fun i _ => h3 i)
    _ = ∑ j : Fin n, ∑ i : Fin n, ((n : ℂ))⁻¹ * ((starRingEnd ℂ) (psi i) * (fft n psi j *
          Complex.exp (2 * Real.pi * Complex.I * ((i : ℕ) : ℂ) * ((j : ℕ) : ℂ) / (n : ℂ)))) :=
        Finset.sum_comm
    _ = ∑ j : Fin n, ((n : ℂ))⁻¹ * (fft n psi j * ∑ i : Fin n, (starRingEnd ℂ) (psi i) *
          Complex.exp (2 * Real.pi * Complex.I * ((i : ℕ) : ℂ) * ((j : ℕ) : ℂ) / (n : ℂ))) := by
        apply Finset.sum_congr rfl
        intro j _
        rw [Finset.mul_sum, Finset.mul_sum]
        apply Finset.sum_congr rfl
        intro i _
        ring
    _ = ∑ j : Fin n, ((n : ℂ))⁻¹ * (fft n psi j * (starRingEnd ℂ) (fft n psi j)) := by
        apply Finset.sum_congr rfl
        intro j _
        rw [h2 j]
    _ = ((n : ℂ))⁻¹ * ∑ j : Fin n, fft n psi j * (starRingEnd ℂ) (fft n psi j) := by
        rw [Finset.mul_sum]

/-- Squared-modulus mass of an inverse transform, via `parseval_aux` and the
inversion lemmas. -/
lemma sum_mul_conj_ifft (n : ℕ) (X : Fin n → ℂ) :
    ∑ i : Fin n, ifft n X i * (starRingEnd ℂ) (ifft n X i)
      = ((n : ℂ))⁻¹ * ∑ j : Fin n, X j * (starRingEnd ℂ) (X j) := by
  have h := parseval_aux n (ifft n X)
  simp only [fft_ifft] at h
  exact h

/-! ## Claim theorems for the spectral part -/

/-- C1: For every initial packet `psi`, wavenumber grid `k`, and time `t`,
evolving by `+t` with `evolve` and then evolving the result by `-t` reproduces
the original amplitude array exactly (exact complex arithmetic). -/
theorem C1_spectral_round_trip (n : ℕ) (psi : Fin n → ℂ) (k : Fin n → ℝ) (t m : ℝ) :
    evolve n (evolve n psi k t m) k (-t) m = psi := by
  unfold evolve
  simp only [fft_ifft]
  have h : (fun j => fft n psi j * phase (k j) t m * phase (k j) (-t) m) = fft n psi := by
    funext j
    rw [mul_assoc, phase_mul_phase_neg, mul_one]
  rw [h, ifft_fft]

/-- C2: For every packet `psi`, grid `k`, and time `t` (positive or
negative), the total probability `Σ |evolve psi k t|² · dx` equals
`Σ |psi|² · dx` exactly: `evolve` conserves the discrete L2 norm. -/
theorem C2_probability_conservation (n : ℕ) (psi : Fin n → ℂ) (k : Fin n → ℝ)
    (t m dx : ℝ) :
    (∑ i : Fin n, Complex.abs (evolve n psi k t m i) ^ 2) * dx
      = (∑ i : Fin n, Complex.abs (psi i) ^ 2) * dx := by
  have hC : ∑ i : Fin n, evolve n psi k t m i * (starRingEnd ℂ) (evolve n psi k t m i)
      = ∑ i : Fin n, psi i * (starRingEnd ℂ) (psi i) := by
    unfold evolve
    rw [sum_mul_conj_ifft]
    have hY : ∀ j : Fin n, fft n psi j * phase (k j) t m *
        (starRingEnd ℂ) (fft n psi j * phase (k j) t m)
        = fft n psi j * (starRingEnd ℂ) (fft n psi j) := by
      intro j
      rw [map_mul]
      calc fft n psi j * phase (k j) t m *
          ((starRingEnd ℂ) (fft n psi j) * (starRingEnd ℂ) (phase (k j) t m))
          = fft n psi j * (starRingEnd ℂ) (fft n psi j) *
              (phase (k j) t m * (starRingEnd ℂ) (phase (k j) t m)) := by ring
        _ = fft n psi j * (starRingEnd ℂ) (fft n psi j) := by
            rw [phase_mul_conj, mul_one]
    rw [Finset.sum_congr rfl (fun j _ => hY j)]
    exact (parseval_aux n psi).symm
  have h1 : ((∑ i : Fin n, Complex.abs (evolve n psi k t m i) ^ 2 : ℝ) : ℂ)
      = ∑ i : Fin n, evolve n psi k t m i * (starRingEnd ℂ) (evolve n psi k t m i) := by
    push_cast
    apply Finset.sum_congr rfl
    intro i _
    rw [← Complex.ofReal_pow, Complex.sq_abs, Complex.mul_conj]
  have h2 : ((∑ i : Fin n, Complex.abs (psi i) ^ 2 : ℝ) : ℂ)
      = ∑ i : Fin n, psi i * (starRingEnd ℂ) (psi i) := by
    push_cast
    apply Finset.sum_congr rfl
    intro i _
    rw [← Complex.ofReal_pow, Complex.sq_abs, Complex.mul_conj]
  have key : (∑ i : Fin n, Complex.abs (evolve n psi k t m i) ^ 2)
      = ∑ i : Fin n, Complex.abs (psi i) ^ 2 := by
    have := h1.trans (hC.trans h2.symm)
    exact_mod_cast this
  rw [key]

end TimeReversal
